import Mathlib

/-!
Verification of the ytrace trace-point registry (include/ytrace/ytrace.hpp).

Strings from the C++ code are modelled as `List Char` (one `Char` per byte;
all bytes that occur have code points below 256).  Machine integers are
modelled as `Int`/`Nat`; where the C++ type's range matters (e.g. `std::stoi`
throwing `out_of_range` for values outside `int`) the bound 2^31 appears
explicitly.  Each definition is a direct translation of the correspondingly
named function of the source header.
-/

namespace Ytrace

/-- Convert a Lean string literal to the byte-list representation. -/
def chars (s : String) : List Char := s.toList

/-- The whitespace characters skipped by `std::istream` formatted extraction
(`operator>>`) under the classic locale. -/
def isStreamSpace (c : Char) : Bool :=
  c = ' ' ∨ c = '\t' ∨ c = '\n' ∨ c = Char.ofNat 11 ∨ c = Char.ofNat 12 ∨ c = Char.ofNat 13

/-- `struct TracePointInfo` (ytrace.hpp:149); the `bool* enabled` flag is
modelled as an owned `Bool` (each call site has its own static flag). -/
structure TracePointInfo where
  enabled : Bool
  file : List Char
  line : Int
  function : List Char
  level : List Char
  message : List Char
deriving DecidableEq

instance : Inhabited TracePointInfo := ⟨⟨false, [], 0, [], [], []⟩⟩

/-- The structural identity `(file, line, function, level, message)` used by
`TraceManager::set_enabled` for lookup. -/
structure TraceKey where
  file : List Char
  line : Int
  function : List Char
  level : List Char
  message : List Char
deriving DecidableEq

/-- The comparison performed by `TraceManager::set_enabled` (ytrace.hpp:383-387):
`line` compared as `int`, the four strings compared by content via
`std::string_view` equality. -/
def matchesKey (k : TraceKey) (p : TracePointInfo) : Bool :=
  p.line == k.line && p.file == k.file && p.function == k.function &&
  p.level == k.level && p.message == k.message

/-- `TraceManager::set_enabled` (ytrace.hpp:379-394): walk the table in
registration order, flip the flag of the first structural match and return
`true`; return `false` (leaving the table unchanged) if nothing matches.
The result is `(returned bool, table after the call)`. -/
def set_enabled (k : TraceKey) (state : Bool) : List TracePointInfo → Bool × List TracePointInfo
  | [] => (false, [])
  | p :: ps =>
    if matchesKey k p then (true, { p with enabled := state } :: ps)
    else
      let r := set_enabled k state ps
      (r.1, p :: r.2)

/-- `TraceManager::set_all_enabled` (ytrace.hpp:450-460): set every flag to
`state`, remembering whether any flag actually changed value; `save_config()`
runs iff one did.  Result: `(table after the call, whether a config write
happened)`. -/
def set_all_enabled (state : Bool) : List TracePointInfo → List TracePointInfo × Bool
  | [] => ([], false)
  | p :: ps =>
    let r := set_all_enabled state ps
    if p.enabled != state then ({ p with enabled := state } :: r.1, true)
    else (p :: r.1, r.2)

/-- `TraceManager::set_level_enabled` (ytrace.hpp:408-419): set the flag of
every point whose `level` equals the argument; `changed` becomes `true` on
every match (whether or not the flag's value changes), and `save_config()`
runs iff `changed`.  Result: `(table, whether a config write happened)`. -/
def set_level_enabled (level : List Char) (state : Bool) :
    List TracePointInfo → List TracePointInfo × Bool
  | [] => ([], false)
  | p :: ps =>
    let r := set_level_enabled level state ps
    if p.level == level then ({ p with enabled := state } :: r.1, true)
    else (p :: r.1, r.2)

/-- `TraceManager::set_file_enabled` (ytrace.hpp:422-433), same shape as
`set_level_enabled` but matching on `file`. -/
def set_file_enabled (file : List Char) (state : Bool) :
    List TracePointInfo → List TracePointInfo × Bool
  | [] => ([], false)
  | p :: ps =>
    let r := set_file_enabled file state ps
    if p.file == file then ({ p with enabled := state } :: r.1, true)
    else (p :: r.1, r.2)

/-- `TraceManager::set_function_enabled` (ytrace.hpp:436-447), same shape as
`set_level_enabled` but matching on `function`. -/
def set_function_enabled (fn : List Char) (state : Bool) :
    List TracePointInfo → List TracePointInfo × Bool
  | [] => ([], false)
  | p :: ps =>
    let r := set_function_enabled fn state ps
    if p.function == fn then ({ p with enabled := state } :: r.1, true)
    else (p :: r.1, r.2)

/-- Value of a hexadecimal digit character, as accepted by `std::hex`
extraction. -/
def hexVal? (c : Char) : Option Nat :=
  if '0' ≤ c ∧ c ≤ '9' then some (c.toNat - '0'.toNat)
  else if 'a' ≤ c ∧ c ≤ 'f' then some (c.toNat - 'a'.toNat + 10)
  else if 'A' ≤ c ∧ c ≤ 'F' then some (c.toNat - 'A'.toNat + 10)
  else none

/-- `iss >> std::hex >> val` applied to the exactly-two-character string
`c1 c2` (the `str.substr(i + 1, 2)` of `url_decode`): formatted extraction
skips leading stream whitespace, accepts an optional sign, then reads hex
digits greedily, failing when no digit is found; the accumulated sequence
`"0x"`/`"0X"` (a bare hex prefix) also fails.  Trailing unread characters do
not make the extraction fail. -/
def hexParse2 (c1 c2 : Char) : Option Int :=
  match hexVal? c1 with
  | some d1 =>
    if c1 = '0' ∧ (c2 = 'x' ∨ c2 = 'X') then none
    else
      match hexVal? c2 with
      | some d2 => some (16 * d1 + d2)
      | none => some d1
  | none =>
    if isStreamSpace c1 then (hexVal? c2).map (fun d => (d : Int))
    else if c1 = '-' then (hexVal? c2).map (fun d => -(d : Int))
    else if c1 = '+' then (hexVal? c2).map (fun d => (d : Int))
    else none

/-- `TraceManager::url_decode` (ytrace.hpp:685-700): scan the string; at a
`'%'` that has at least two following characters, try to read the next two
characters as a hex number; on success append `static_cast<char>(val)` (the
value reduced to a byte) and skip both characters, otherwise emit the
character literally and resume one position later. -/
def url_decode : List Char → List Char
  | [] => []
  | c :: c1 :: c2 :: rest2 =>
    if c = '%' then
      match hexParse2 c1 c2 with
      | some v => Char.ofNat (v % 256).toNat :: url_decode rest2
      | none => '%' :: url_decode (c1 :: c2 :: rest2)
    else c :: url_decode (c1 :: c2 :: rest2)
  | c :: rest => c :: url_decode rest

/-- Split off the text after the last `':'` (`std::string::rfind(':')`
followed by the two `substr` calls of `process_batch_command`); `none` when
the string holds no colon (`npos`). -/
def rsplitColon (s : List Char) : Option (List Char × List Char) :=
  if s.contains ':' then
    some (((s.reverse.dropWhile (fun c => c ≠ ':')).drop 1).reverse,
          (s.reverse.takeWhile (fun c => c ≠ ':')).reverse)
  else none

/-- Digit sequence read as a decimal number. -/
def decDigitsVal (ds : List Char) : Nat :=
  ds.foldl (fun a c => 10 * a + (c.toNat - '0'.toNat)) 0

/-- `std::stoi` as used on the line field (ytrace.hpp:734): skip leading
whitespace, read an optional sign and then decimal digits greedily (trailing
non-digits are ignored); throw — here `none` — when no digit is present
(`invalid_argument`) or the value falls outside `int` (`out_of_range`). -/
def cppStoi (s : List Char) : Option Int :=
  let t := s.dropWhile isStreamSpace
  let sgn : Int := match t.head? with | some '-' => -1 | _ => 1
  let t1 := match t.head? with
    | some '-' => t.drop 1
    | some '+' => t.drop 1
    | _ => t
  let ds := t1.takeWhile Char.isDigit
  if ds = [] then none
  else
    let v : Int := sgn * (decDigitsVal ds : Int)
    if v < -(2 ^ 31) ∨ (2 ^ 31) ≤ v then none else some v

/-- One `<spec>` of a batch command, parsed from the right exactly as in
`process_batch_command` (ytrace.hpp:711-735): message (URL-decoded), level,
function, then file and line; any missing colon or a failing `std::stoi`
aborts this spec. -/
def parse_spec (spec : List Char) : Option TraceKey :=
  match rsplitColon spec with
  | none => none
  | some (rest1, msgEnc) =>
    match rsplitColon rest1 with
    | none => none
    | some (rest2, level) =>
      match rsplitColon rest2 with
      | none => none
      | some (rest3, fn) =>
        match rsplitColon rest3 with
        | none => none
        | some (file, lineStr) =>
          match cppStoi lineStr with
          | none => none
          | some line => some ⟨file, line, fn, level, url_decode msgEnc⟩

/-- Whitespace tokenisation performed by repeated `iss >> spec` extraction
(fuel-driven recursion; `l.length` fuel always suffices). -/
def wsTokenizeAux : Nat → List Char → List (List Char)
  | 0, _ => []
  | fuel + 1, l =>
    match l with
    | [] => []
    | c :: cs =>
      if isStreamSpace c then wsTokenizeAux fuel cs
      else (c :: cs.takeWhile (fun d => ¬ isStreamSpace d)) ::
           wsTokenizeAux fuel (cs.dropWhile (fun d => ¬ isStreamSpace d))

/-- Whitespace tokenisation performed by repeated `iss >> spec` extraction. -/
def wsTokenize (l : List Char) : List (List Char) :=
  wsTokenizeAux l.length l

/-- Decimal digit characters, least significant first (fuel-driven;
`n` itself always suffices as fuel since `n / 10 < n` for positive `n`). -/
def natDigitsRevAux : Nat → Nat → List Char
  | 0, _ => []
  | fuel + 1, n =>
    if n = 0 then []
    else Char.ofNat ('0'.toNat + n % 10) :: natDigitsRevAux fuel (n / 10)

/-- Decimal digit characters of a number, least significant first. -/
def natDigitsRev (n : Nat) : List Char :=
  natDigitsRevAux n n

/-- Decimal digits of a natural number (the `std::ostream` rendering). -/
def natToChars (n : Nat) : List Char :=
  if n = 0 then ['0'] else (natDigitsRev n).reverse

/-- `operator<<` rendering of an `int`. -/
def intToChars (n : Int) : List Char :=
  if n < 0 then '-' :: natToChars n.natAbs else natToChars n.toNat

/-- `TraceManager::process_batch_command` (ytrace.hpp:703-745): skip the verb
token, then for each whitespace-separated spec: parse it (a failing spec is
skipped) and apply `set_enabled`, counting the specs that matched; answer
`"OK: <Enabled|Disabled> <count> trace point(s)\n"`.  Result: `(response,
table after the call)`. -/
def process_batch_command (command : List Char) (enable : Bool)
    (pts : List TracePointInfo) : List Char × List TracePointInfo :=
  let specs := (wsTokenize command).drop 1
  let fr := specs.foldl
    (fun (st : List TracePointInfo × Nat) spec =>
      match parse_spec spec with
      | none => st
      | some k =>
        let r := set_enabled k enable st.1
        (r.2, if r.1 then st.2 + 1 else st.2)) (pts, 0)
  (chars ("OK: ") ++ (if enable then chars ("Enabled") else chars ("Disabled")) ++
     chars (" ") ++ natToChars fr.2 ++ chars (" trace point(s)\n"), fr.1)

/-- One line of `TraceManager::list_trace_points` (ytrace.hpp:477-480); note
the `"[ON] "` literal carries a trailing space of its own before the
separating `" ["`. -/
def formatPoint (idx : Nat) (p : TracePointInfo) : List Char :=
  natToChars idx ++ chars (" ") ++
  (if p.enabled then chars ("[ON] ") else chars ("[OFF]")) ++
  chars (" [") ++ p.level ++ chars ("] ") ++ p.file ++ chars (":") ++
  intToChars p.line ++ chars (" (") ++ p.function ++ chars (") ") ++
  ['"'] ++ p.message ++ ['"', '\n']

/-- The listing loop of `list_trace_points` starting at index `idx`. -/
def listFrom (idx : Nat) : List TracePointInfo → List Char
  | [] => []
  | p :: ps => formatPoint idx p ++ listFrom (idx + 1) ps

/-- `TraceManager::list_trace_points` (ytrace.hpp:472-483). -/
def list_trace_points (pts : List TracePointInfo) : List Char :=
  listFrom 0 pts

/-- One step of the rolling hash of `ConfigPersistence::compute_path_hash`
(ytrace.hpp:82-85): `hash = ((hash << 5) + hash) ^ (unsigned char)c` on a
64-bit `unsigned long`. -/
def hashStep (h : Nat) (c : Char) : Nat :=
  ((h * 33) ^^^ (c.toNat % 256)) % 2 ^ 64

/-- The hash accumulated over the whole path string, starting from 5381. -/
def pathHashVal (path : List Char) : Nat :=
  path.foldl hashStep 5381

/-- The base-36 rendering loop of `compute_path_hash` (ytrace.hpp:88-96):
exactly `count` digits, least significant first, digits `0-9` then `a-z`. -/
def base36Digits (count : Nat) (h : Nat) : List Char :=
  match count with
  | 0 => []
  | n + 1 =>
    (if h % 36 < 10 then Char.ofNat ('0'.toNat + h % 36)
     else Char.ofNat ('a'.toNat + h % 36 - 10)) :: base36Digits n (h / 36)

/-- `ConfigPersistence::compute_path_hash` (ytrace.hpp:80-98). -/
def compute_path_hash (path : List Char) : List Char :=
  base36Digits 20 (pathHashVal path)

/-- The basename extraction of `ConfigPersistence::get_exec_name_and_path`
(ytrace.hpp:108-110): the text after the last `'/'`, or the whole path when
it has none. -/
def basenameOf (p : List Char) : List Char :=
  (p.reverse.takeWhile (fun c => c ≠ '/')).reverse

/-- `ConfigPersistence::get_config_file` (ytrace.hpp:117-136) with the `HOME`
environment value passed explicitly:
`<home>/.cache/ytrace/<name-sans-ytrace_-prefix>-<path-hash>.config`. -/
def get_config_file (home exec_name exec_path : List Char) : List Char :=
  let cache_dir := home ++ chars ("/.cache/ytrace")
  let config_name := if exec_name.take 7 = chars ("ytrace_") then exec_name.drop 7 else exec_name
  cache_dir ++ chars ("/") ++ config_name ++ chars ("-") ++
    compute_path_hash exec_path ++ chars (".config")

/-- `struct ConfigPersistence::ConfigEntry` (ytrace.hpp:71-78). -/
structure ConfigEntry where
  enabled : Bool
  file : List Char
  line : Int
  function : List Char
  level : List Char
  message : List Char
deriving DecidableEq

/-- One line written by `ConfigPersistence::save_state` (ytrace.hpp:901-908). -/
def savePointLine (p : TracePointInfo) : List Char :=
  (if p.enabled then chars ("1") else chars ("0")) ++ chars (" ") ++ p.file ++ chars (" ") ++
  intToChars p.line ++ chars (" ") ++ p.function ++ chars (" ") ++ p.level ++ chars (" ") ++
  p.message ++ chars ("\n")

/-- `ConfigPersistence::save_state` (ytrace.hpp:896-911); the produced file
content (the function writes it to disk). -/
def save_state (pts : List TracePointInfo) : List Char :=
  (pts.map savePointLine).flatten

/-- `savePointLine` without its trailing newline, in head-normal shape. -/
def saveBody (p : TracePointInfo) : List Char :=
  (if p.enabled then natToChars 1 else natToChars 0) ++ ' ' ::
    (p.file ++ ' ' ::
      (intToChars p.line ++ ' ' ::
        (p.function ++ ' ' :: (p.level ++ ' ' :: p.message))))

/-- `iss >> some_string`: skip stream whitespace, then read a maximal run of
non-whitespace characters, failing at end of input.  Returns the token and
the rest of the stream. -/
def readToken (l : List Char) : Option (List Char × List Char) :=
  let t := l.dropWhile isStreamSpace
  if t = [] then none
  else some (t.takeWhile (fun c => ¬ isStreamSpace c),
             t.dropWhile (fun c => ¬ isStreamSpace c))

/-- `iss >> some_int`: skip stream whitespace, read an optional sign and then
decimal digits greedily, failing when no digit follows or the value leaves
the `int` range (C++11 stream extraction sets `failbit` on overflow).
Trailing characters stay in the stream. -/
def readInt (l : List Char) : Option (Int × List Char) :=
  let t := l.dropWhile isStreamSpace
  let sgn : Int := if t.head? = some '-' then -1 else 1
  let t1 := if t.head? = some '-' ∨ t.head? = some '+' then t.drop 1 else t
  let ds := t1.takeWhile Char.isDigit
  if ds = [] then none
  else
    let v : Int := sgn * (decDigitsVal ds : Int)
    if v < -(2 ^ 31) ∨ (2 ^ 31) ≤ v then none
    else some (v, t1.drop ds.length)

/-- The per-line parse of `ConfigPersistence::load_config_entries`
(ytrace.hpp:922-948): `iss >> enabled_int >> file_path >> line_num >> func >>
level`, then the rest of the line (when any remains) becomes the message
after trimming exactly one leading `' '`. -/
def parseConfigLine (line : List Char) : Option ConfigEntry := do
  let (en, r1) ← readInt line
  let (fp, r2) ← readToken r1
  let (ln, r3) ← readInt r2
  let (fn, r4) ← readToken r3
  let (lv, r5) ← readToken r4
  let msg := if r5 = [] then [] else if r5.head? = some ' ' then r5.drop 1 else r5
  pure ⟨en ≠ 0, fp, ln, fn, lv, msg⟩

/-- The `while (std::getline(file, line))` loop: split the stream's content
at each `'\n'`; a trailing newline yields no extra (empty) final line. -/
def splitLines : List Char → List (List Char)
  | [] => []
  | c :: cs =>
    if c = '\n' then [] :: splitLines cs
    else
      match splitLines cs with
      | [] => [[c]]
      | l :: ls => (c :: l) :: ls

/-- `ConfigPersistence::load_config_entries` (ytrace.hpp:913-952) applied to
a file content: lines are read by `std::getline`, empty lines are skipped,
and a line whose five leading fields do not extract is dropped. -/
def load_config_entries (content : List Char) : List ConfigEntry :=
  ((splitLines content).filter (fun l => l ≠ [])).filterMap parseConfigLine

/-- The match condition of `ConfigPersistence::apply_saved_state`
(ytrace.hpp:956-960). -/
def entryMatches (e : ConfigEntry) (k : TraceKey) : Bool :=
  e.file == k.file && e.line == k.line && e.function == k.function &&
  e.level == k.level && e.message == k.message

/-- `ConfigPersistence::apply_saved_state` (ytrace.hpp:954-966): the first
matching saved entry overrides the point's flag; result `(point after the
call, whether an entry matched)`. -/
def apply_saved_state (entries : List ConfigEntry) (p : TracePointInfo) :
    TracePointInfo × Bool :=
  match entries.find? (fun e => entryMatches e ⟨p.file, p.line, p.function, p.level, p.message⟩) with
  | some e => ({ p with enabled := e.enabled }, true)
  | none => (p, false)

/-- `detail::register_trace_point` (ytrace.hpp:783-788) together with
`TraceManager::register_trace_point` (ytrace.hpp:363-376): the flag starts at
the process-wide default, the point is appended to the table, and the loaded
saved config is applied to the new entry. -/
def register_trace_point (saved : List ConfigEntry) (default_enabled : Bool)
    (pts : List TracePointInfo) (k : TraceKey) : List TracePointInfo :=
  pts ++ [(apply_saved_state saved
            ⟨default_enabled, k.file, k.line, k.function, k.level, k.message⟩).1]

/-- `struct TimerStats` (ytrace.hpp:174-179).  `count` is a `uint64_t` and
the three statistics are `double`s in the source; per the exact-arithmetic
reading of the spec's properties they are modelled as `Nat` (no 2^64
wrap-around) and `ℚ`. -/
structure TimerStats where
  count : Nat
  avg : ℚ
  min : ℚ
  max : ℚ
deriving DecidableEq

/-- The timer table `stats_ : unordered_map<string, TimerStats>`, modelled as
a partial map; `operator[]` default-constructs a zeroed entry. -/
def TimerTable := List Char → Option TimerStats

/-- The empty timer table. -/
def emptyTimerTable : TimerTable := fun _ => none

/-- The mutation of `TimerManager::record` (ytrace.hpp:189-202) on one
`TimerStats` value: `count++`, first sample sets all three statistics,
later samples update the running average and widen min/max. -/
def recordUpdate (s : TimerStats) (x : ℚ) : TimerStats :=
  let c := s.count + 1
  if c = 1 then ⟨1, x, x, x⟩
  else ⟨c, s.avg + (x - s.avg) / (c : ℚ),
        if x < s.min then x else s.min,
        if x > s.max then x else s.max⟩

/-- `TimerManager::record` (ytrace.hpp:189-202). -/
def record (t : TimerTable) (label : List Char) (x : ℚ) : TimerTable :=
  fun l => if l = label then some (recordUpdate ((t label).getD ⟨0, 0, 0, 0⟩) x) else t l

/-- A whole run of `record` calls, in order. -/
def runRecords (evs : List (List Char × ℚ)) : TimerTable :=
  evs.foldl (fun t e => record t e.1 e.2) emptyTimerTable

/-- The samples recorded for one label during a run. -/
def samplesFor (label : List Char) (evs : List (List Char × ℚ)) : List ℚ :=
  (evs.filter (fun e => e.1 = label)).map (fun e => e.2)

/-- Modelled from the spec: the missing external client serializer
(`ytrace-ctl`, not under `src/`), which "must escape every byte outside the
unreserved set (letters, digits, `-`, `_`, `.`, `~`)" as `%XX` per RFC 3986
when it serializes a spec's message field. -/
def isUnreserved (c : Char) : Bool :=
  c.isAlpha ∨ c.isDigit ∨ c = '-' ∨ c = '_' ∨ c = '.' ∨ c = '~'

/-- Upper-case hex digit, as RFC 3986 uses for percent-encoding. -/
def hexDigitChar (n : Nat) : Char :=
  if n < 10 then Char.ofNat ('0'.toNat + n) else Char.ofNat ('A'.toNat + n - 10)

/-- Modelled from the spec: percent-encode every byte outside the unreserved
set as `%XX`; unreserved bytes pass through. -/
def percentEncode : List Char → List Char
  | [] => []
  | c :: rest =>
    (if isUnreserved c then [c]
     else ['%', hexDigitChar (c.toNat / 16), hexDigitChar (c.toNat % 16)]) ++
    percentEncode rest

/-- Modelled from the spec: the response line format claimed for `list`,
`<index> [ON|OFF] [<level>] <file>:<line> (<function>) "<message>"` — a
single space between every two fields. -/
def specListLine (idx : Nat) (p : TracePointInfo) : List Char :=
  natToChars idx ++ chars (" ") ++
  (if p.enabled then chars ("[ON]") else chars ("[OFF]")) ++
  chars (" [") ++ p.level ++ chars ("] ") ++ p.file ++ chars (":") ++
  intToChars p.line ++ chars (" (") ++ p.function ++ chars (") ") ++
  ['"'] ++ p.message ++ ['"', '\n']

/-- The saved `ConfigEntry` a point contributes to the config file. -/
def pointToEntry (p : TracePointInfo) : ConfigEntry :=
  ⟨p.enabled, p.file, p.line, p.function, p.level, p.message⟩

/-- The cumulative effect of a batch command's loop on `(table, count)`. -/
def applyKeys (enable : Bool) (pts : List TracePointInfo) (ks : List TraceKey) :
    List TracePointInfo × Nat :=
  ks.foldl
    (fun st k =>
      let r := set_enabled k enable st.1
      (r.2, if r.1 then st.2 + 1 else st.2)) (pts, 0)

/-- An executable-path family sharing one basename, used to exhibit that the
64-bit path hash cannot separate all paths. -/
def collPath (n : Nat) : List Char :=
  '/' :: (List.replicate n 'a' ++ chars ("/b"))

/- ------------------------------------------------------------------ -/
/- Theorems.                                                           -/
/- ------------------------------------------------------------------ -/

theorem takeWhile_append_all {p : Char → Bool} {a : List Char} {c : Char} (t : List Char)
    (ha : ∀ x ∈ a, p x = true) (hc : p c = false) :
    (a ++ c :: t).takeWhile p = a := by
  induction a with
  | nil => simp [List.takeWhile_cons, hc]
  | cons x xs ih =>
    have hx := ha x (by simp)
    simp only [List.cons_append, List.takeWhile_cons, hx, if_true]
    rw [ih (fun y hy => ha y (by simp [hy]))]

theorem dropWhile_append_all {p : Char → Bool} {a : List Char} {c : Char} (t : List Char)
    (ha : ∀ x ∈ a, p x = true) (hc : p c = false) :
    (a ++ c :: t).dropWhile p = c :: t := by
  induction a with
  | nil => simp [List.dropWhile_cons, hc]
  | cons x xs ih =>
    have hx := ha x (by simp)
    simp only [List.cons_append, List.dropWhile_cons, hx, if_true]
    exact ih (fun y hy => ha y (by simp [hy]))

theorem set_enabled_true_iff (k : TraceKey) (st : Bool) (pts : List TracePointInfo) :
    (set_enabled k st pts).1 = true ↔ ∃ p ∈ pts, matchesKey k p = true := by
  induction pts with
  | nil => simp [set_enabled]
  | cons p ps ih =>
    by_cases h : matchesKey k p = true
    · simp [set_enabled, h]
    · simp [set_enabled, h, ih]

theorem set_enabled_no_match (k : TraceKey) (st : Bool) (pts : List TracePointInfo)
    (h : ∀ p ∈ pts, matchesKey k p = false) :
    set_enabled k st pts = (false, pts) := by
  induction pts with
  | nil => rfl
  | cons p ps ih =>
    have hp := h p (by simp)
    simp [set_enabled, hp, ih (fun q hq => h q (by simp [hq]))]

theorem set_enabled_snd_eq (k : TraceKey) (st : Bool) (pts : List TracePointInfo) :
    (set_enabled k st pts).2 =
      if (set_enabled k st pts).1 then
        pts.set (pts.findIdx (matchesKey k))
          { pts.getD (pts.findIdx (matchesKey k)) default with enabled := st }
      else pts := by
  induction pts with
  | nil => simp [set_enabled]
  | cons p ps ih =>
    by_cases h : matchesKey k p = true
    · simp [set_enabled, h, List.findIdx_cons]
    · have h1 : (set_enabled k st (p :: ps)).1 = (set_enabled k st ps).1 := by
        simp [set_enabled, h]
      have h2 : (set_enabled k st (p :: ps)).2 = p :: (set_enabled k st ps).2 := by
        simp [set_enabled, h]
      rw [h1, h2, ih, List.findIdx_cons]
      by_cases hb : (set_enabled k st ps).1 = true
      · simp [hb, h]
      · simp [hb, h]

theorem withEnabled_self (p : TracePointInfo) (st : Bool) (h : p.enabled = st) :
    { p with enabled := st } = p := by
  cases p
  simp_all

theorem set_all_enabled_fst (st : Bool) (pts : List TracePointInfo) :
    (set_all_enabled st pts).1 = pts.map (fun p => { p with enabled := st }) := by
  induction pts with
  | nil => rfl
  | cons p ps ih =>
    by_cases h : p.enabled = st
    · have hb : (p.enabled != st) = false := by simp [h]
      simp [set_all_enabled, hb, ih, withEnabled_self p st h]
    · have hb : (p.enabled != st) = true := by simp [h]
      simp [set_all_enabled, hb, ih]

theorem set_all_enabled_snd (st : Bool) (pts : List TracePointInfo) :
    (set_all_enabled st pts).2 = true ↔ ∃ p ∈ pts, p.enabled = !st := by
  induction pts with
  | nil => simp [set_all_enabled]
  | cons p ps ih =>
    by_cases h : p.enabled = st
    · have hb : (p.enabled != st) = false := by simp [h]
      have hne : ¬ (p.enabled = !st) := by simp [h]
      simp [set_all_enabled, hb, ih, hne]
    · have hb : (p.enabled != st) = true := by simp [h]
      have heq : p.enabled = !st := by
        cases hs : st <;> cases he : p.enabled <;> simp_all
      simp [set_all_enabled, hb, heq]

theorem set_all_enabled_no_change (st : Bool) (pts : List TracePointInfo)
    (h : ∀ p ∈ pts, p.enabled = st) :
    set_all_enabled st pts = (pts, false) := by
  induction pts with
  | nil => rfl
  | cons p ps ih =>
    have hp := h p (by simp)
    have hb : (p.enabled != st) = false := by simp [hp]
    simp [set_all_enabled, hb, ih (fun q hq => h q (by simp [hq]))]

/-- C5: `set_all_enabled(state)` sets every point's flag to `state`; the
persistence write happens iff at least one flag actually changed value, so a
second identical call is a no-op on the table and performs no write. -/
theorem C5_set_all_enabled_idempotent (state : Bool) (pts : List TracePointInfo) :
    ((set_all_enabled state pts).1 = pts.map (fun p => { p with enabled := state })) ∧
    ((set_all_enabled state pts).2 = true ↔ ∃ p ∈ pts, p.enabled = !state) ∧
    (set_all_enabled true (set_all_enabled true pts).1 = ((set_all_enabled true pts).1, false)) := by
  refine ⟨set_all_enabled_fst state pts, set_all_enabled_snd state pts, ?_⟩
  apply set_all_enabled_no_change
  intro p hp
  rw [set_all_enabled_fst] at hp
  obtain ⟨q, _, rfl⟩ := List.mem_map.mp hp
  rfl

theorem set_level_enabled_fst (lvl : List Char) (st : Bool) (pts : List TracePointInfo) :
    (set_level_enabled lvl st pts).1 =
      pts.map (fun p => if p.level = lvl then { p with enabled := st } else p) := by
  induction pts with
  | nil => rfl
  | cons p ps ih =>
    by_cases h : p.level = lvl
    · simp [set_level_enabled, h, ih]
    · simp [set_level_enabled, h, ih]

theorem set_level_enabled_snd (lvl : List Char) (st : Bool) (pts : List TracePointInfo) :
    (set_level_enabled lvl st pts).2 = true ↔ ∃ p ∈ pts, p.level = lvl := by
  induction pts with
  | nil => simp [set_level_enabled]
  | cons p ps ih =>
    by_cases h : p.level = lvl
    · simp [set_level_enabled, h]
    · simp [set_level_enabled, h, ih]

theorem set_file_enabled_fst (fl : List Char) (st : Bool) (pts : List TracePointInfo) :
    (set_file_enabled fl st pts).1 =
      pts.map (fun p => if p.file = fl then { p with enabled := st } else p) := by
  induction pts with
  | nil => rfl
  | cons p ps ih =>
    by_cases h : p.file = fl
    · simp [set_file_enabled, h, ih]
    · simp [set_file_enabled, h, ih]

theorem set_file_enabled_snd (fl : List Char) (st : Bool) (pts : List TracePointInfo) :
    (set_file_enabled fl st pts).2 = true ↔ ∃ p ∈ pts, p.file = fl := by
  induction pts with
  | nil => simp [set_file_enabled]
  | cons p ps ih =>
    by_cases h : p.file = fl
    · simp [set_file_enabled, h]
    · simp [set_file_enabled, h, ih]

theorem set_function_enabled_fst (fn : List Char) (st : Bool) (pts : List TracePointInfo) :
    (set_function_enabled fn st pts).1 =
      pts.map (fun p => if p.function = fn then { p with enabled := st } else p) := by
  induction pts with
  | nil => rfl
  | cons p ps ih =>
    by_cases h : p.function = fn
    · simp [set_function_enabled, h, ih]
    · simp [set_function_enabled, h, ih]

theorem set_function_enabled_snd (fn : List Char) (st : Bool) (pts : List TracePointInfo) :
    (set_function_enabled fn st pts).2 = true ↔ ∃ p ∈ pts, p.function = fn := by
  induction pts with
  | nil => simp [set_function_enabled]
  | cons p ps ih =>
    by_cases h : p.function = fn
    · simp [set_function_enabled, h]
    · simp [set_function_enabled, h, ih]

/-- C6 as written is false: a call of `set_level_enabled` in which every
matched point's flag already equals the requested state still triggers the
persistence write — here a single already-enabled `info` point is matched,
the table is returned unchanged, yet the write flag is `true`. -/
theorem C6_counterexample :
    (set_level_enabled (chars ("info")) true
        [⟨true, chars ("a.cc"), 1, chars ("f"), chars ("info"), chars ("m")⟩]).1 =
      [⟨true, chars ("a.cc"), 1, chars ("f"), chars ("info"), chars ("m")⟩] ∧
    (set_level_enabled (chars ("info")) true
        [⟨true, chars ("a.cc"), 1, chars ("f"), chars ("info"), chars ("m")⟩]).2 = true := by
  decide

/-- C6 (amended): each of `set_level_enabled`, `set_file_enabled` and
`set_function_enabled` sets the flag of exactly the points whose respective
field equals the argument, and performs the persistence write iff at least
one point matched — even when no matched flag changes value. -/
theorem C6_field_bulk_spec (lvl fl fn : List Char) (state : Bool)
    (pts : List TracePointInfo) :
    ((set_level_enabled lvl state pts).1 =
       pts.map (fun p => if p.level = lvl then { p with enabled := state } else p)) ∧
    ((set_level_enabled lvl state pts).2 = true ↔ ∃ p ∈ pts, p.level = lvl) ∧
    ((set_file_enabled fl state pts).1 =
       pts.map (fun p => if p.file = fl then { p with enabled := state } else p)) ∧
    ((set_file_enabled fl state pts).2 = true ↔ ∃ p ∈ pts, p.file = fl) ∧
    ((set_function_enabled fn state pts).1 =
       pts.map (fun p => if p.function = fn then { p with enabled := state } else p)) ∧
    ((set_function_enabled fn state pts).2 = true ↔ ∃ p ∈ pts, p.function = fn) :=
  ⟨set_level_enabled_fst lvl state pts, set_level_enabled_snd lvl state pts,
   set_file_enabled_fst fl state pts, set_file_enabled_snd fl state pts,
   set_function_enabled_fst fn state pts, set_function_enabled_snd fn state pts⟩

/-- C1: `set_enabled(file, line, function, level, message, state)` returns
`true` iff some registered point's identity tuple equals the key; on success
exactly the first structurally-matching entry (in registration order) gets
its flag set to `state` and every other entry is untouched; on failure the
table is unchanged. -/
theorem C1_set_enabled_first_match (k : TraceKey) (state : Bool)
    (pts : List TracePointInfo) :
    ((set_enabled k state pts).1 = true ↔ ∃ p ∈ pts, matchesKey k p = true) ∧
    (set_enabled k state pts).2 =
      (if (set_enabled k state pts).1 then
        pts.set (pts.findIdx (matchesKey k))
          { pts.getD (pts.findIdx (matchesKey k)) default with enabled := state }
      else pts) :=
  ⟨set_enabled_true_iff k state pts, set_enabled_snd_eq k state pts⟩

theorem listFrom_eq_mapIdx (i : Nat) (xs : List TracePointInfo) :
    listFrom i xs = (xs.mapIdx (fun j p => formatPoint (i + j) p)).flatten := by
  induction xs generalizing i with
  | nil => simp [listFrom]
  | cons p ps ih =>
    have he : (fun j q => formatPoint (i + (j + 1)) q) = (fun j q => formatPoint (i + 1 + j) q) := by
      funext j q
      have : i + (j + 1) = i + 1 + j := by omega
      rw [this]
    rw [listFrom, List.mapIdx_cons]
    simp only [List.flatten_cons, Nat.add_zero, he]
    rw [ih (i + 1)]

theorem listFrom_append (i : Nat) (xs ys : List TracePointInfo) :
    listFrom i (xs ++ ys) = listFrom i xs ++ listFrom (i + xs.length) ys := by
  induction xs generalizing i with
  | nil => simp [listFrom]
  | cons p ps ih =>
    simp only [List.cons_append, listFrom, List.append_assoc, List.length_cons, List.append_eq]
    rw [ih (i + 1)]
    have : i + (ps.length + 1) = i + 1 + ps.length := by omega
    rw [this]

/-- C7 as written is false: the listing line of an enabled point is not of
the claimed form `<index> [ON] [<level>] ...` — the code's `"[ON] "` literal
is followed by a further separating space, so ON lines carry two spaces
before the level bracket. -/
theorem C7_counterexample :
    list_trace_points [⟨true, chars ("a.cc"), 1, chars ("f"), chars ("info"), chars ("m")⟩] ≠
      specListLine 0 ⟨true, chars ("a.cc"), 1, chars ("f"), chars ("info"), chars ("m")⟩ := by
  decide

/-- C7 (amended): `list()` returns exactly one line per registered point, in
registration order, with indices numbered consecutively from 0; each line is
`formatPoint` — the claimed format except that ON lines read `[ON]` followed
by two spaces (the `"[ON] "` literal plus the field separator) where OFF
lines have one; registering further points only appends lines at the
continuing indices, so the line of an already-registered point never
changes. -/
theorem C7_list_index_stable (pts qs : List TracePointInfo) :
    (list_trace_points pts = (pts.mapIdx formatPoint).flatten) ∧
    (list_trace_points (pts ++ qs) =
      list_trace_points pts ++
        (qs.mapIdx (fun i q => formatPoint (pts.length + i) q)).flatten) := by
  constructor
  · have h := listFrom_eq_mapIdx 0 pts
    simpa [list_trace_points] using h
  · rw [list_trace_points, list_trace_points, listFrom_append]
    simp only [Nat.zero_add]
    rw [listFrom_eq_mapIdx pts.length qs]

/-- C9: the first `record(label, x)` call for a label initialises its stats
to `count = 1`, `avg = min = max = x`; each later call increments `count`,
updates the running average by `avg += (x - avg)/count`, and widens min/max;
recording `100, 200, 300` yields `count = 3, avg = 200, min = 100,
max = 300` exactly. -/
theorem C9_record_spec (t : TimerTable) (label : List Char) (x : ℚ) :
    (t label = none → record t label x label = some ⟨1, x, x, x⟩) ∧
    (∀ s : TimerStats, t label = some s → 1 ≤ s.count →
      record t label x label =
        some ⟨s.count + 1, s.avg + (x - s.avg) / ((s.count + 1 : ℕ) : ℚ),
              if x < s.min then x else s.min,
              if x > s.max then x else s.max⟩) ∧
    (runRecords [(label, 100), (label, 200), (label, 300)] label =
      some ⟨3, 200, 100, 300⟩) := by
  refine ⟨?_, ?_, ?_⟩
  · intro h
    simp [record, recordUpdate, h]
  · intro s hs hc
    have hne : s.count + 1 ≠ 1 := by omega
    simp [record, recordUpdate, hs, hne]
  · norm_num [runRecords, record, recordUpdate, emptyTimerTable]

/-- Witness for C9 at a concrete input: a second sample of `200` after one
sample of `100` produces `count = 2, avg = 150, min = 100, max = 200`. -/
theorem C9_record_spec_witness :
    record (runRecords [(chars ("X"), 100)]) (chars ("X")) 200 (chars ("X")) =
      some ⟨2, 150, 100, 200⟩ := by
  have h := (C9_record_spec (runRecords [(chars ("X"), 100)]) (chars ("X")) 200).2.1
    ⟨1, 100, 100, 100⟩
    (by norm_num [runRecords, record, recordUpdate, emptyTimerTable])
    (by norm_num)
  rw [h]
  norm_num

theorem recordUpdate_first (x : ℚ) : recordUpdate ⟨0, 0, 0, 0⟩ x = ⟨1, x, x, x⟩ := by
  simp [recordUpdate]

theorem recordUpdate_invariant (s : TimerStats) (x : ℚ) (samples : List ℚ)
    (hcount : s.count = samples.length)
    (hminmem : s.min ∈ samples) (hmaxmem : s.max ∈ samples)
    (hbounds : ∀ y ∈ samples, s.min ≤ y ∧ y ≤ s.max)
    (havg1 : s.min ≤ s.avg) (havg2 : s.avg ≤ s.max) :
    (recordUpdate s x).count = (samples ++ [x]).length ∧
    (recordUpdate s x).min ∈ samples ++ [x] ∧
    (recordUpdate s x).max ∈ samples ++ [x] ∧
    (∀ y ∈ samples ++ [x], (recordUpdate s x).min ≤ y ∧ y ≤ (recordUpdate s x).max) ∧
    (recordUpdate s x).min ≤ (recordUpdate s x).avg ∧
    (recordUpdate s x).avg ≤ (recordUpdate s x).max := by
  have hpos : 1 ≤ samples.length := by
    cases samples with
    | nil => cases hminmem
    | cons a t => simp
  have hne : s.count + 1 ≠ 1 := by omega
  have hup : recordUpdate s x =
      ⟨s.count + 1, s.avg + (x - s.avg) / ((s.count + 1 : ℕ) : ℚ),
       if x < s.min then x else s.min, if x > s.max then x else s.max⟩ := by
    simp [recordUpdate, hne]
  have hc1 : (1 : ℚ) ≤ ((s.count + 1 : ℕ) : ℚ) := by
    exact_mod_cast Nat.one_le_iff_ne_zero.mpr (by omega)
  have hminle : (if x < s.min then x else s.min) ≤ s.min := by
    by_cases h : x < s.min
    · simp [h]; linarith
    · simp [h]
  have hminlex : (if x < s.min then x else s.min) ≤ x := by
    by_cases h : x < s.min
    · simp [h]
    · simp [h]; linarith [not_lt.mp h]
  have hmaxge : s.max ≤ (if x > s.max then x else s.max) := by
    by_cases h : x > s.max
    · simp [h]; linarith
    · simp [h]
  have hmaxgex : x ≤ (if x > s.max then x else s.max) := by
    by_cases h : x > s.max
    · simp [h]
    · simp [h]; linarith [not_lt.mp h]
  have havgmin : (if x < s.min then x else s.min) ≤
      s.avg + (x - s.avg) / ((s.count + 1 : ℕ) : ℚ) := by
    rcases le_total s.avg x with h1 | h1
    · have hq0 : 0 ≤ (x - s.avg) / ((s.count + 1 : ℕ) : ℚ) :=
        div_nonneg (by linarith) (by linarith)
      linarith
    · have hq1 : (s.avg - x) / ((s.count + 1 : ℕ) : ℚ) ≤ s.avg - x :=
        div_le_self (by linarith) hc1
      have hq2 : (x - s.avg) / ((s.count + 1 : ℕ) : ℚ) =
          -((s.avg - x) / ((s.count + 1 : ℕ) : ℚ)) := by ring
      rw [hq2]
      linarith
  have havgmax : s.avg + (x - s.avg) / ((s.count + 1 : ℕ) : ℚ) ≤
      (if x > s.max then x else s.max) := by
    rcases le_total s.avg x with h1 | h1
    · have hq1 : (x - s.avg) / ((s.count + 1 : ℕ) : ℚ) ≤ x - s.avg :=
        div_le_self (by linarith) hc1
      linarith
    · have hq0 : 0 ≤ (s.avg - x) / ((s.count + 1 : ℕ) : ℚ) :=
        div_nonneg (by linarith) (by linarith)
      have hq2 : (x - s.avg) / ((s.count + 1 : ℕ) : ℚ) =
          -((s.avg - x) / ((s.count + 1 : ℕ) : ℚ)) := by ring
      rw [hq2]
      linarith
  rw [hup]
  refine ⟨by simp [hcount], ?_, ?_, ?_, havgmin, havgmax⟩
  · by_cases h : x < s.min
    · simp [h]
    · simp only [h, if_false]
      exact List.mem_append_left _ hminmem
  · by_cases h : x > s.max
    · simp [h]
    · simp only [h, if_false]
      exact List.mem_append_left _ hmaxmem
  · intro y hy
    rcases List.mem_append.mp hy with hy1 | hy2
    · obtain ⟨hb1, hb2⟩ := hbounds y hy1
      exact ⟨le_trans hminle hb1, le_trans hb2 hmaxge⟩
    · have hyx : y = x := by simpa using hy2
      subst hyx
      exact ⟨hminlex, hmaxgex⟩

/-- C10: over exact (rational) arithmetic, after any sequence of `record`
calls every label in the timer table has `count` equal to its number of
samples, `min`/`max` equal to the least/greatest recorded sample, and
`min ≤ avg ≤ max`. -/
theorem C10_record_invariant (evs : List (List Char × ℚ)) (label : List Char) :
    (runRecords evs label = none → samplesFor label evs = []) ∧
    (∀ s : TimerStats, runRecords evs label = some s →
      s.count = (samplesFor label evs).length ∧
      s.min ∈ samplesFor label evs ∧ s.max ∈ samplesFor label evs ∧
      (∀ y ∈ samplesFor label evs, s.min ≤ y ∧ y ≤ s.max) ∧
      s.min ≤ s.avg ∧ s.avg ≤ s.max) := by
  induction evs using List.reverseRecOn with
  | nil =>
    constructor
    · intro
      simp [samplesFor]
    · intro s hs
      simp [runRecords, emptyTimerTable] at hs
  | append_singleton l e ih =>
    have hrun : runRecords (l ++ [e]) = record (runRecords l) e.1 e.2 := by
      simp [runRecords, List.foldl_append]
    have hsamp : samplesFor label (l ++ [e]) =
        samplesFor label l ++ (if e.1 = label then [e.2] else []) := by
      by_cases h : e.1 = label
      · simp [samplesFor, List.filter_append, h]
      · simp [samplesFor, List.filter_append, h]
    by_cases hel : e.1 = label
    · have hrl : record (runRecords l) e.1 e.2 label =
          some (recordUpdate (((runRecords l) label).getD ⟨0, 0, 0, 0⟩) e.2) := by
        simp [record, hel]
      rw [hrun, hrl, hsamp, if_pos hel]
      constructor
      · intro h
        cases h
      · intro s hs
        cases hold : (runRecords l) label with
        | none =>
          have hemp : samplesFor label l = [] := ih.1 hold
          rw [hold] at hs
          simp only [Option.getD, recordUpdate_first] at hs
          cases hs
          rw [hemp]
          refine ⟨by simp, by simp, by simp, ?_, le_refl _, le_refl _⟩
          intro y hy
          have : y = e.2 := by simpa using hy
          subst this
          exact ⟨le_refl _, le_refl _⟩
        | some sOld =>
          obtain ⟨h1, h2, h3, h4, h5, h6⟩ := ih.2 sOld hold
          rw [hold] at hs
          simp only [Option.getD] at hs
          cases hs
          exact recordUpdate_invariant sOld e.2 (samplesFor label l) h1 h2 h3 h4 h5 h6
    · have hrl : record (runRecords l) e.1 e.2 label = (runRecords l) label := by
        have : label ≠ e.1 := fun h => hel h.symm
        simp [record, this]
      rw [hrun, hrl, hsamp, if_neg hel]
      simpa using ih

/-- Witness for C10 at a concrete input: after recording `100` then `200`
for label `X` the stats are `⟨2, 150, 100, 200⟩`, whose count matches the
two samples and whose average lies between min and max. -/
theorem C10_record_invariant_witness :
    (2 = (samplesFor (chars ("X")) [(chars ("X"), 100), (chars ("X"), 200)]).length) ∧
    (100 : ℚ) ≤ 150 ∧ (150 : ℚ) ≤ 200 := by
  have h := (C10_record_invariant [(chars ("X"), 100), (chars ("X"), 200)] (chars ("X"))).2
    ⟨2, 150, 100, 200⟩
    (by norm_num [runRecords, record, recordUpdate, emptyTimerTable])
  exact ⟨h.1, h.2.2.2.2.1, h.2.2.2.2.2⟩

theorem hexVal_hexDigitChar : ∀ n < 16, hexVal? (hexDigitChar n) = some n := by
  decide

theorem hexDigitChar_ne_x : ∀ n < 16, hexDigitChar n ≠ 'x' ∧ hexDigitChar n ≠ 'X' := by
  decide

theorem url_decode_cons_ne (c : Char) (hne : ¬ c = '%') (L : List Char) :
    url_decode (c :: L) = c :: url_decode L := by
  match L with
  | [] => simp [url_decode]
  | [c1] => simp [url_decode]
  | c1 :: c2 :: L2 => simp [url_decode, hne]

theorem url_decode_encoded_byte (c : Char) (h : c.toNat < 256) (rest : List Char) :
    url_decode ('%' :: hexDigitChar (c.toNat / 16) :: hexDigitChar (c.toNat % 16) :: rest) =
      c :: url_decode rest := by
  have hd1 : c.toNat / 16 < 16 := by omega
  have hd2 : c.toNat % 16 < 16 := by omega
  have hv1 := hexVal_hexDigitChar _ hd1
  have hv2 := hexVal_hexDigitChar _ hd2
  have hne := hexDigitChar_ne_x _ hd2
  have hp : hexParse2 (hexDigitChar (c.toNat / 16)) (hexDigitChar (c.toNat % 16)) =
      some ((16 * (c.toNat / 16) + c.toNat % 16 : Nat) : Int) := by
    simp [hexParse2, hv1, hv2, hne.1, hne.2]
  have hval : (16 * (c.toNat / 16) + c.toNat % 16) = c.toNat := by omega
  rw [url_decode]
  simp only [if_pos rfl, hp, hval]
  have htn : (((c.toNat : Int) % 256)).toNat = c.toNat := by omega
  rw [htn, Char.ofNat_toNat]
  simp

/-- C4: percent-encoding every byte outside the RFC 3986 unreserved set and
then applying the code's `url_decode` restores the original byte string —
including spaces, colons, `%` and non-ASCII bytes. -/
theorem C4_percent_round_trip (m : List Char) (h : ∀ c ∈ m, c.toNat < 256) :
    url_decode (percentEncode m) = m := by
  induction m with
  | nil => rfl
  | cons c rest ih =>
    have hc : c.toNat < 256 := h c (by simp)
    have ihr := ih (fun d hd => h d (by simp [hd]))
    by_cases hu : isUnreserved c = true
    · have hne : ¬ c = '%' := by
        intro he
        rw [he] at hu
        simp [isUnreserved] at hu
      rw [percentEncode, if_pos hu, List.singleton_append, url_decode_cons_ne c hne, ihr]
    · rw [percentEncode, if_neg hu]
      simp only [List.cons_append, List.nil_append]
      rw [url_decode_encoded_byte c hc, ihr]

/-- Witness for C4 at a concrete input containing a space, a colon, a `%`
and the non-ASCII byte 233. -/
theorem C4_percent_round_trip_witness :
    url_decode (percentEncode (chars ("a b:c%") ++ [Char.ofNat 233])) =
      chars ("a b:c%") ++ [Char.ofNat 233] :=
  C4_percent_round_trip _ (by decide)

theorem pathHashVal_lt (p : List Char) : pathHashVal p < 2 ^ 64 := by
  induction p using List.reverseRecOn with
  | nil => norm_num [pathHashVal]
  | append_singleton l c _ =>
    have hstep : pathHashVal (l ++ [c]) = hashStep (pathHashVal l) c := by
      simp [pathHashVal, List.foldl_append]
    rw [hstep]
    exact Nat.mod_lt _ (by norm_num)

theorem base36Digits_length (n h : Nat) : (base36Digits n h).length = n := by
  induction n generalizing h with
  | zero => rfl
  | succ k ih => simp [base36Digits, ih]

theorem compute_path_hash_length (p : List Char) : (compute_path_hash p).length = 20 :=
  base36Digits_length 20 _

theorem basenameOf_collPath (k : Nat) : basenameOf (collPath k) = chars ("b") := by
  simp [basenameOf, collPath, chars, List.reverse_append, List.takeWhile_cons]

/-- C8 as written is false: the config path is derived through a 64-bit
rolling hash, so by pigeonhole there exist two distinct absolute executable
paths with the same basename whose derived config file paths coincide. -/
theorem C8_counterexample :
    ¬ (∀ p1 p2 : List Char, p1 ≠ p2 → basenameOf p1 = basenameOf p2 →
        get_config_file (chars ("/home/u")) (basenameOf p1) p1 ≠
        get_config_file (chars ("/home/u")) (basenameOf p2) p2) := by
  intro hcl
  obtain ⟨n, m, hnm, heq⟩ :=
    Finite.exists_ne_map_eq_of_infinite
      (fun n : ℕ => (⟨pathHashVal (collPath n), pathHashVal_lt _⟩ : Fin (2 ^ 64)))
  have hhash : pathHashVal (collPath n) = pathHashVal (collPath m) :=
    congrArg Fin.val heq
  have hpne : collPath n ≠ collPath m := by
    intro he
    apply hnm
    have hlen := congrArg List.length he
    simpa [collPath, chars] using hlen
  have hbeq : basenameOf (collPath n) = basenameOf (collPath m) := by
    rw [basenameOf_collPath, basenameOf_collPath]
  apply hcl (collPath n) (collPath m) hpne hbeq
  rw [basenameOf_collPath, basenameOf_collPath]
  unfold get_config_file compute_path_hash
  rw [hhash]

/-- C8 (amended): the config file path is a pure function of the `HOME`
value, the executable basename and the executable path — the same inputs
always yield the same path, with no clock or PID dependence — and two
executable paths whose 20-character path hashes differ map to different
config files (distinct paths with the same basename can collide, since the
hash has only 2^64 values). -/
theorem C8_config_paths (home name p1 p2 : List Char)
    (h : compute_path_hash p1 ≠ compute_path_hash p2) :
    get_config_file home name p1 ≠ get_config_file home name p2 := by
  intro he
  apply h
  unfold get_config_file at he
  simp only [List.append_assoc] at he
  have h1 := List.append_cancel_left he
  have h2 := List.append_cancel_left h1
  have h3 := List.append_cancel_left h2
  have h4 := List.append_cancel_left h3
  have h5 := List.append_cancel_left h4
  exact (List.append_inj h5 (by rw [compute_path_hash_length, compute_path_hash_length])).1

/-- Witness for C8 at concrete inputs: `/x` and `/y` hash differently, so
their config files differ. -/
theorem C8_config_paths_witness :
    get_config_file (chars ("/h")) (chars ("n")) (chars ("/x")) ≠
      get_config_file (chars ("/h")) (chars ("n")) (chars ("/y")) :=
  C8_config_paths _ _ _ _ (by decide)

theorem dropWhile_ne_colon (l : List Char) :
    l.dropWhile (fun c => c ≠ ':') = [] ∨
    ∃ t, l.dropWhile (fun c => c ≠ ':') = ':' :: t := by
  induction l with
  | nil => exact Or.inl rfl
  | cons x xs ih =>
    by_cases h : x = ':'
    · subst h
      exact Or.inr ⟨xs, by simp [List.dropWhile_cons]⟩
    · simpa [List.dropWhile_cons, h] using ih

theorem rsplitColon_append (a b : List Char) (hb : ':' ∉ b) :
    rsplitColon (a ++ ':' :: b) = some (a, b) := by
  have hcont : (a ++ ':' :: b).contains ':' = true :=
    List.elem_eq_true_of_mem (by simp)
  have hrev : (a ++ ':' :: b).reverse = b.reverse ++ ':' :: a.reverse := by
    simp [List.reverse_append]
  have hall : ∀ x ∈ b.reverse, (fun c => decide (c ≠ ':')) x = true := by
    intro x hx
    have hxb : x ∈ b := List.mem_reverse.mp hx
    have hxne : x ≠ ':' := fun he => hb (he ▸ hxb)
    simpa using hxne
  have hcol : (fun c => decide (c ≠ ':')) ':' = false := by simp
  rw [rsplitColon, if_pos hcont, hrev,
    takeWhile_append_all _ hall hcol, dropWhile_append_all _ hall hcol]
  simp

theorem rsplitColon_eq_some (s a b : List Char) (h : rsplitColon s = some (a, b)) :
    s = a ++ ':' :: b ∧ ':' ∉ b := by
  unfold rsplitColon at h
  by_cases hc : s.contains ':' = true
  · rw [if_pos hc] at h
    have hmem : ':' ∈ s := List.mem_of_elem_eq_true hc
    rcases dropWhile_ne_colon s.reverse with hd | ⟨t, hd⟩
    · exfalso
      have := List.takeWhile_append_dropWhile
        (p := fun c => decide (c ≠ ':')) (l := s.reverse)
      rw [hd, List.append_nil] at this
      have hmemr : ':' ∈ s.reverse := List.mem_reverse.mpr hmem
      rw [← this] at hmemr
      have := List.mem_takeWhile_imp hmemr
      simp at this
    · have hsplit := List.takeWhile_append_dropWhile
        (p := fun c => decide (c ≠ ':')) (l := s.reverse)
      rw [hd] at hsplit
      injection h with hpair
      have ha : a = ((s.reverse.dropWhile (fun c => c ≠ ':')).drop 1).reverse :=
        (congrArg Prod.fst hpair).symm
      have hbb : b = (s.reverse.takeWhile (fun c => c ≠ ':')).reverse :=
        (congrArg Prod.snd hpair).symm
      constructor
      · rw [ha, hbb, hd]
        simp only [List.drop_one, List.tail_cons]
        calc s = s.reverse.reverse := by rw [List.reverse_reverse]
        _ = (s.reverse.takeWhile (fun c => c ≠ ':') ++ ':' :: t).reverse := by rw [hsplit]
        _ = t.reverse ++ ':' :: (s.reverse.takeWhile (fun c => c ≠ ':')).reverse := by
            simp [List.reverse_append]
      · rw [hbb]
        intro hmem2
        have := List.mem_takeWhile_imp (List.mem_reverse.mp hmem2)
        simp at this
  · rw [if_neg hc] at h
    cases h

theorem parse_spec_eq (f l fn lv m : List Char)
    (hl : ':' ∉ l) (hfn : ':' ∉ fn) (hlv : ':' ∉ lv) (hm : ':' ∉ m) :
    parse_spec (f ++ ':' :: l ++ ':' :: fn ++ ':' :: lv ++ ':' :: m) =
      (match cppStoi l with
       | none => none
       | some n => some ⟨f, n, fn, lv, url_decode m⟩) := by
  have e1 : f ++ ':' :: l ++ ':' :: fn ++ ':' :: lv ++ ':' :: m =
      (f ++ ':' :: l ++ ':' :: fn ++ ':' :: lv) ++ ':' :: m := by
    simp [List.append_assoc]
  have e2 : f ++ ':' :: l ++ ':' :: fn ++ ':' :: lv =
      (f ++ ':' :: l ++ ':' :: fn) ++ ':' :: lv := by
    simp [List.append_assoc]
  have e3 : f ++ ':' :: l ++ ':' :: fn = (f ++ ':' :: l) ++ ':' :: fn := by
    simp [List.append_assoc]
  rw [parse_spec, e1, rsplitColon_append _ _ hm]
  simp only
  rw [e2, rsplitColon_append _ _ hlv]
  simp only
  rw [e3, rsplitColon_append _ _ hfn]
  simp only
  rw [rsplitColon_append _ _ hl]

theorem parse_spec_colon_count (s : List Char) (k : TraceKey)
    (h : parse_spec s = some k) : 4 ≤ s.count ':' := by
  cases h1 : rsplitColon s with
  | none => simp [parse_spec, h1] at h
  | some pr1 =>
    obtain ⟨r1, m1⟩ := pr1
    obtain ⟨hs1, -⟩ := rsplitColon_eq_some s r1 m1 h1
    cases h2 : rsplitColon r1 with
    | none => simp [parse_spec, h1, h2] at h
    | some pr2 =>
      obtain ⟨r2, m2⟩ := pr2
      obtain ⟨hs2, -⟩ := rsplitColon_eq_some r1 r2 m2 h2
      cases h3 : rsplitColon r2 with
      | none => simp [parse_spec, h1, h2, h3] at h
      | some pr3 =>
        obtain ⟨r3, m3⟩ := pr3
        obtain ⟨hs3, -⟩ := rsplitColon_eq_some r2 r3 m3 h3
        cases h4 : rsplitColon r3 with
        | none => simp [parse_spec, h1, h2, h3, h4] at h
        | some pr4 =>
          obtain ⟨r4, m4⟩ := pr4
          obtain ⟨hs4, -⟩ := rsplitColon_eq_some r3 r4 m4 h4
          have c1 := congrArg (fun t => List.count ':' t) hs1
          have c2 := congrArg (fun t => List.count ':' t) hs2
          have c3 := congrArg (fun t => List.count ':' t) hs3
          have c4 := congrArg (fun t => List.count ':' t) hs4
          simp only [List.count_append, List.count_cons] at c1 c2 c3 c4
          simp at c1 c2 c3 c4
          omega

theorem foldl_filterMap_parse {α : Type} (g : α → TraceKey → α) (init : α)
    (S : List (List Char)) :
    S.foldl (fun st s => match parse_spec s with | none => st | some k => g st k) init =
      (S.filterMap parse_spec).foldl g init := by
  induction S generalizing init with
  | nil => rfl
  | cons s ss ih =>
    cases h : parse_spec s with
    | none => simp [List.filterMap_cons, h, ih]
    | some k => simp [List.filterMap_cons, h, ih]

theorem process_batch_eq (cmd : List Char) (en : Bool) (pts : List TracePointInfo) :
    process_batch_command cmd en pts =
      (chars ("OK: ") ++ (if en then chars ("Enabled") else chars ("Disabled")) ++ chars (" ") ++
        natToChars (applyKeys en pts (((wsTokenize cmd).drop 1).filterMap parse_spec)).2 ++
        chars (" trace point(s)\n"),
       (applyKeys en pts (((wsTokenize cmd).drop 1).filterMap parse_spec)).1) := by
  have hfl := foldl_filterMap_parse
    (fun (st : List TracePointInfo × Nat) k =>
      let r := set_enabled k en st.1
      (r.2, if r.1 then st.2 + 1 else st.2))
    (pts, 0) ((wsTokenize cmd).drop 1)
  simp only [process_batch_command, applyKeys]
  rw [hfl]

theorem applyKeys_no_match (en : Bool) (pts : List TracePointInfo) (ks : List TraceKey)
    (h : ∀ k ∈ ks, ∀ p ∈ pts, matchesKey k p = false) :
    applyKeys en pts ks = (pts, 0) := by
  induction ks with
  | nil => rfl
  | cons k ks ih =>
    have hk := set_enabled_no_match k en pts (h k (by simp))
    have step : applyKeys en pts (k :: ks) = applyKeys en pts ks := by
      unfold applyKeys
      simp [List.foldl_cons, hk]
    rw [step]
    exact ih (fun q hq p hp => h q (by simp [hq]) p hp)

/-- C2: a batch `enable`/`disable` command parses each whitespace-separated
spec from the right (message percent-decoded after the last colon, then
level, function, and file:line with an integer line); a spec with fewer than
four colons or a failing `std::stoi` is skipped without affecting the rest;
every parsed spec is applied through `set_enabled` and the `OK` response
reports the count of specs that matched, which is `0` (still `OK`) when
nothing matches. -/
theorem C2_batch_command_spec (cmd : List Char) (en : Bool)
    (pts : List TracePointInfo) :
    (process_batch_command cmd en pts =
      (chars ("OK: ") ++ (if en then chars ("Enabled") else chars ("Disabled")) ++ chars (" ") ++
        natToChars (applyKeys en pts (((wsTokenize cmd).drop 1).filterMap parse_spec)).2 ++
        chars (" trace point(s)\n"),
       (applyKeys en pts (((wsTokenize cmd).drop 1).filterMap parse_spec)).1)) ∧
    (∀ f l fn lv m : List Char, ':' ∉ l → ':' ∉ fn → ':' ∉ lv → ':' ∉ m →
      parse_spec (f ++ ':' :: l ++ ':' :: fn ++ ':' :: lv ++ ':' :: m) =
        (match cppStoi l with
         | none => none
         | some n => some ⟨f, n, fn, lv, url_decode m⟩)) ∧
    (∀ s : List Char, s.count ':' < 4 → parse_spec s = none) ∧
    ((∀ k ∈ ((wsTokenize cmd).drop 1).filterMap parse_spec, ∀ p ∈ pts,
        matchesKey k p = false) →
      process_batch_command cmd en pts =
        (chars ("OK: ") ++ (if en then chars ("Enabled") else chars ("Disabled")) ++ chars (" ") ++
          natToChars 0 ++ chars (" trace point(s)\n"), pts)) := by
  refine ⟨process_batch_eq cmd en pts, parse_spec_eq, ?_, ?_⟩
  · intro s hc
    cases hps : parse_spec s with
    | none => rfl
    | some k =>
      have := parse_spec_colon_count s k hps
      omega
  · intro h
    rw [process_batch_eq cmd en pts, applyKeys_no_match en pts _ h]

/-- Witness for C2 at a concrete input (Scenario D): the batch spec
`a.cc:10:f:info:hello%20world` sent to an empty registry matches nothing and
the response is still `OK` with count `0`. -/
theorem C2_batch_command_spec_witness :
    process_batch_command (chars ("enable a.cc:10:f:info:hello%20world")) true [] =
      (chars ("OK: Enabled 0 trace point(s)\n"), []) := by
  have h := (C2_batch_command_spec (chars ("enable a.cc:10:f:info:hello%20world"))
      true []).2.2.2 (by decide)
  rw [h]
  decide

theorem char_ofNat_toNat_small (m : Nat) (h : m < 55296) : (Char.ofNat m).toNat = m := by
  unfold Char.ofNat
  split
  · rfl
  · next hnv => exact absurd (Or.inl h) hnv

theorem digitChar_facts : ∀ d < 10,
    Char.isDigit (Char.ofNat (48 + d)) = true ∧
    isStreamSpace (Char.ofNat (48 + d)) = false ∧
    Char.ofNat (48 + d) ≠ '\n' ∧
    Char.ofNat (48 + d) ≠ '-' ∧ Char.ofNat (48 + d) ≠ '+' := by
  decide

theorem natDigitsRevAux_mem (fuel : Nat) :
    ∀ n, ∀ c ∈ natDigitsRevAux fuel n, ∃ d < 10, c = Char.ofNat (48 + d) := by
  induction fuel with
  | zero =>
    intro n c hc
    simp [natDigitsRevAux] at hc
  | succ f ih =>
    intro n c hc
    by_cases h0 : n = 0
    · simp [natDigitsRevAux, h0] at hc
    · rw [natDigitsRevAux, if_neg h0] at hc
      rcases List.mem_cons.mp hc with hc1 | hc2
      · exact ⟨n % 10, Nat.mod_lt _ (by norm_num), hc1⟩
      · exact ih (n / 10) c hc2

theorem natToChars_mem (n : Nat) :
    ∀ c ∈ natToChars n, ∃ d < 10, c = Char.ofNat (48 + d) := by
  intro c hc
  by_cases h0 : n = 0
  · rw [natToChars, if_pos h0] at hc
    refine ⟨0, by norm_num, ?_⟩
    simpa using hc
  · rw [natToChars, if_neg h0, natDigitsRev] at hc
    exact natDigitsRevAux_mem n n c (List.mem_reverse.mp hc)

theorem decDigitsVal_append (xs : List Char) (c : Char) :
    decDigitsVal (xs ++ [c]) = 10 * decDigitsVal xs + (c.toNat - 48) := by
  simp [decDigitsVal, List.foldl_append]

theorem decDigitsVal_natDigitsRevAux (fuel : Nat) :
    ∀ n ≤ fuel, decDigitsVal ((natDigitsRevAux fuel n).reverse) = n := by
  induction fuel with
  | zero =>
    intro n hn
    have : n = 0 := by omega
    subst this
    rfl
  | succ f ih =>
    intro n hn
    by_cases h0 : n = 0
    · subst h0
      rfl
    · rw [natDigitsRevAux, if_neg h0, List.reverse_cons, decDigitsVal_append]
      have hdivle : n / 10 ≤ f := by
        have := Nat.div_lt_self (Nat.pos_of_ne_zero h0) (by norm_num : 1 < 10)
        omega
      rw [ih (n / 10) hdivle]
      have htn : (Char.ofNat (48 + n % 10)).toNat = 48 + n % 10 :=
        char_ofNat_toNat_small _ (by have := Nat.mod_lt n (by norm_num : 0 < 10); omega)
      have h48 : ('0'.toNat) = 48 := rfl
      rw [h48, htn]
      have := Nat.div_add_mod n 10
      omega

theorem decDigitsVal_natToChars (n : Nat) : decDigitsVal (natToChars n) = n := by
  by_cases h0 : n = 0
  · subst h0
    rfl
  · rw [natToChars, if_neg h0, natDigitsRev]
    exact decDigitsVal_natDigitsRevAux n n (le_refl n)

theorem natToChars_ne_nil (n : Nat) : natToChars n ≠ [] := by
  cases n with
  | zero => simp [natToChars]
  | succ k =>
    rw [natToChars, if_neg (Nat.succ_ne_zero k), natDigitsRev, natDigitsRevAux,
      if_neg (Nat.succ_ne_zero k)]
    simp

theorem natToChars_all_digit (n : Nat) : ∀ c ∈ natToChars n,
    Char.isDigit c = true ∧ isStreamSpace c = false ∧ c ≠ '\n' ∧ c ≠ '-' ∧ c ≠ '+' := by
  intro c hc
  obtain ⟨d, hd, rfl⟩ := natToChars_mem n c hc
  exact digitChar_facts d hd

theorem readInt_cons_space (l : List Char) : readInt (' ' :: l) = readInt l := by
  have h : (' ' :: l).dropWhile isStreamSpace = l.dropWhile isStreamSpace := by
    rw [List.dropWhile_cons]
    simp [isStreamSpace]
  simp only [readInt, h]

theorem readToken_cons_space (l : List Char) : readToken (' ' :: l) = readToken l := by
  have h : (' ' :: l).dropWhile isStreamSpace = l.dropWhile isStreamSpace := by
    rw [List.dropWhile_cons]
    simp [isStreamSpace]
  simp only [readToken, h]

theorem readToken_run (tok : List Char) (hne : tok ≠ [])
    (hws : ∀ c ∈ tok, isStreamSpace c = false) (rest : List Char) :
    readToken (tok ++ ' ' :: rest) = some (tok, ' ' :: rest) := by
  obtain ⟨c, tk, rfl⟩ := List.exists_cons_of_ne_nil hne
  have hc : isStreamSpace c = false := hws c (by simp)
  have hdrop : ((c :: tk) ++ ' ' :: rest).dropWhile isStreamSpace =
      (c :: tk) ++ ' ' :: rest := by
    rw [List.cons_append, List.dropWhile_cons]
    simp [hc]
  have hall : ∀ x ∈ c :: tk, (fun d => decide (¬ isStreamSpace d = true)) x = true := by
    intro x hx
    simp [hws x hx]
  have hsp : (fun d => decide (¬ isStreamSpace d = true)) ' ' = false := by
    simp [isStreamSpace]
  simp only [readToken, hdrop]
  rw [takeWhile_append_all _ hall hsp, dropWhile_append_all _ hall hsp]
  simp

theorem readInt_run (n : Int) (hlo : -(2 ^ 31) ≤ n) (hhi : n < 2 ^ 31)
    (rest : List Char) :
    readInt (intToChars n ++ ' ' :: rest) = some (n, ' ' :: rest) := by
  have hdigall : ∀ m : Nat, ∀ x ∈ natToChars m,
      (fun d => Char.isDigit d) x = true := by
    intro m x hx
    exact (natToChars_all_digit m x hx).1
  have hdigsp : (fun d => Char.isDigit d) ' ' = false := by decide
  by_cases hneg : n < 0
  · rw [intToChars, if_pos hneg]
    have hdrop : (('-' :: natToChars n.natAbs) ++ ' ' :: rest).dropWhile isStreamSpace =
        '-' :: (natToChars n.natAbs ++ ' ' :: rest) := by
      rw [List.cons_append, List.dropWhile_cons]
      simp [isStreamSpace]
    simp only [readInt, hdrop, List.head?_cons, List.drop_succ_cons, List.drop_zero]
    simp only [true_or, if_true]
    rw [takeWhile_append_all _ (hdigall n.natAbs) hdigsp]
    rw [if_neg (natToChars_ne_nil n.natAbs)]
    rw [decDigitsVal_natToChars]
    have hv : (-1 : Int) * (n.natAbs : Int) = n := by omega
    rw [hv, if_neg (by omega)]
    rw [List.drop_left]
  · have h0 : 0 ≤ n := by omega
    rw [intToChars, if_neg hneg]
    obtain ⟨c, tk, hA⟩ := List.exists_cons_of_ne_nil (natToChars_ne_nil n.toNat)
    have hcfacts := natToChars_all_digit n.toNat c (by rw [hA]; simp)
    have hdrop : ((natToChars n.toNat) ++ ' ' :: rest).dropWhile isStreamSpace =
        c :: (tk ++ ' ' :: rest) := by
      rw [hA, List.cons_append, List.dropWhile_cons]
      simp [hcfacts.2.1]
    simp only [readInt, hdrop, List.head?_cons]
    have hne1 : ¬ (some c = some '-') := by
      simp [hcfacts.2.2.2.1]
    have hne2 : ¬ (some c = some '-' ∨ some c = some '+') := by
      simp [hcfacts.2.2.2.1, hcfacts.2.2.2.2]
    rw [if_neg hne1, if_neg hne2]
    have hback : c :: (tk ++ ' ' :: rest) = natToChars n.toNat ++ ' ' :: rest := by
      rw [hA, List.cons_append]
    rw [hback, takeWhile_append_all _ (hdigall n.toNat) hdigsp]
    rw [if_neg (natToChars_ne_nil n.toNat)]
    rw [decDigitsVal_natToChars]
    have hv : (1 : Int) * (n.toNat : Int) = n := by omega
    rw [hv, if_neg (by omega)]
    rw [List.drop_left]

theorem splitLines_append (a rest : List Char) (ha : '\n' ∉ a) :
    splitLines (a ++ '\n' :: rest) = a :: splitLines rest := by
  induction a with
  | nil => simp [splitLines]
  | cons c cs ih =>
    have hc : ¬ c = '\n' := fun he => ha (by simp [he])
    have ihr := ih (fun h => ha (by simp [h]))
    rw [List.cons_append, splitLines, if_neg hc, ihr]

theorem intToChars_no_newline (n : Int) : '\n' ∉ intToChars n := by
  intro hmem
  rw [intToChars] at hmem
  by_cases hneg : n < 0
  · rw [if_pos hneg] at hmem
    rcases List.mem_cons.mp hmem with h1 | h2
    · cases h1
    · exact absurd rfl (natToChars_all_digit _ _ h2).2.2.1
  · rw [if_neg hneg] at hmem
    exact absurd rfl (natToChars_all_digit _ _ hmem).2.2.1

theorem natToChars_no_newline (n : Nat) : '\n' ∉ natToChars n := by
  intro hmem
  exact absurd rfl (natToChars_all_digit _ _ hmem).2.2.1

theorem savePointLine_eq_body (p : TracePointInfo) :
    savePointLine p = saveBody p ++ ['\n'] := by
  have h1 : chars ("1") = natToChars 1 := rfl
  have h0 : chars ("0") = natToChars 0 := rfl
  have hsp : chars (" ") = [' '] := rfl
  have hnl : chars ("\n") = ['\n'] := rfl
  cases hp : p.enabled <;>
    simp [savePointLine, saveBody, hp, h1, h0, hsp, hnl, List.append_assoc]

theorem saveBody_ne_nil (p : TracePointInfo) : saveBody p ≠ [] := by
  rw [saveBody]
  cases p.enabled <;> simp [natToChars_ne_nil]

theorem saveBody_no_newline (p : TracePointInfo)
    (hf2 : ∀ c ∈ p.file, isStreamSpace c = false)
    (hn2 : ∀ c ∈ p.function, isStreamSpace c = false)
    (hl2 : ∀ c ∈ p.level, isStreamSpace c = false)
    (hm : '\n' ∉ p.message) : '\n' ∉ saveBody p := by
  have hnlsp : isStreamSpace '\n' = true := by decide
  intro hmem
  rw [saveBody] at hmem
  simp only [List.mem_append, List.mem_cons] at hmem
  rcases hmem with hE | hsp1 | hfile | hsp2 | hline | hsp3 | hfn | hsp4 | hlv | hsp5 | hmsg
  · cases hp : p.enabled <;> rw [hp] at hE <;> simp at hE <;>
      exact absurd rfl (natToChars_all_digit _ _ hE).2.2.1
  · cases hsp1
  · rw [hf2 '\n' hfile] at hnlsp
    cases hnlsp
  · cases hsp2
  · exact intToChars_no_newline p.line hline
  · cases hsp3
  · rw [hn2 '\n' hfn] at hnlsp
    cases hnlsp
  · cases hsp4
  · rw [hl2 '\n' hlv] at hnlsp
    cases hnlsp
  · cases hsp5
  · exact hm hmsg

theorem parseConfigLine_saveBody (p : TracePointInfo)
    (hf1 : p.file ≠ []) (hf2 : ∀ c ∈ p.file, isStreamSpace c = false)
    (hn1 : p.function ≠ []) (hn2 : ∀ c ∈ p.function, isStreamSpace c = false)
    (hl1 : p.level ≠ []) (hl2 : ∀ c ∈ p.level, isStreamSpace c = false)
    (hlo : -(2 ^ 31) ≤ p.line) (hhi : p.line < 2 ^ 31) :
    parseConfigLine (saveBody p) = some (pointToEntry p) := by
  have hE : (if p.enabled then natToChars 1 else natToChars 0) =
      intToChars (if p.enabled then 1 else 0) := by
    cases p.enabled <;> rfl
  have e1 : readInt (saveBody p) =
      some ((if p.enabled then (1 : Int) else 0),
        ' ' :: (p.file ++ ' ' ::
          (intToChars p.line ++ ' ' ::
            (p.function ++ ' ' :: (p.level ++ ' ' :: p.message))))) := by
    rw [saveBody, hE]
    exact readInt_run _ (by cases p.enabled <;> norm_num)
      (by cases p.enabled <;> norm_num) _
  have e2 : readToken (' ' :: (p.file ++ ' ' ::
      (intToChars p.line ++ ' ' ::
        (p.function ++ ' ' :: (p.level ++ ' ' :: p.message))))) =
      some (p.file, ' ' :: (intToChars p.line ++ ' ' ::
        (p.function ++ ' ' :: (p.level ++ ' ' :: p.message)))) := by
    rw [readToken_cons_space]
    exact readToken_run p.file hf1 hf2 _
  have e3 : readInt (' ' :: (intToChars p.line ++ ' ' ::
      (p.function ++ ' ' :: (p.level ++ ' ' :: p.message)))) =
      some (p.line, ' ' :: (p.function ++ ' ' :: (p.level ++ ' ' :: p.message))) := by
    rw [readInt_cons_space]
    exact readInt_run p.line hlo hhi _
  have e4 : readToken (' ' :: (p.function ++ ' ' :: (p.level ++ ' ' :: p.message))) =
      some (p.function, ' ' :: (p.level ++ ' ' :: p.message)) := by
    rw [readToken_cons_space]
    exact readToken_run p.function hn1 hn2 _
  have e5 : readToken (' ' :: (p.level ++ ' ' :: p.message)) =
      some (p.level, ' ' :: p.message) := by
    rw [readToken_cons_space]
    exact readToken_run p.level hl1 hl2 _
  rw [parseConfigLine]
  simp only [e1, Option.bind_eq_bind, Option.some_bind, e2, e3, e4, e5]
  cases hp : p.enabled <;> simp [pointToEntry, hp]

theorem load_save_roundtrip (pts : List TracePointInfo)
    (h : ∀ p ∈ pts,
      (p.file ≠ [] ∧ ∀ c ∈ p.file, isStreamSpace c = false) ∧
      (p.function ≠ [] ∧ ∀ c ∈ p.function, isStreamSpace c = false) ∧
      (p.level ≠ [] ∧ ∀ c ∈ p.level, isStreamSpace c = false) ∧
      '\n' ∉ p.message ∧ (-(2 ^ 31) ≤ p.line ∧ p.line < 2 ^ 31)) :
    load_config_entries (save_state pts) = pts.map pointToEntry := by
  induction pts with
  | nil => rfl
  | cons p ps ih =>
    obtain ⟨⟨hf1, hf2⟩, ⟨hn1, hn2⟩, ⟨hl1, hl2⟩, hm, hlo, hhi⟩ := h p (by simp)
    have hsave : save_state (p :: ps) = saveBody p ++ '\n' :: save_state ps := by
      show (List.map savePointLine (p :: ps)).flatten = _
      rw [List.map_cons, List.flatten_cons, savePointLine_eq_body,
        List.append_assoc, List.singleton_append]
      rfl
    rw [load_config_entries, hsave,
      splitLines_append _ _ (saveBody_no_newline p hf2 hn2 hl2 hm)]
    rw [List.filter_cons, if_pos (by simp [saveBody_ne_nil p])]
    rw [List.filterMap_cons,
      parseConfigLine_saveBody p hf1 hf2 hn1 hn2 hl1 hl2 hlo hhi]
    rw [List.map_cons]
    have ihr := ih (fun q hq => h q (by simp [hq]))
    rw [load_config_entries] at ihr
    rw [ihr]

theorem register_trace_point_eq (saved : List ConfigEntry) (d : Bool)
    (pts0 : List TracePointInfo) (k : TraceKey) :
    register_trace_point saved d pts0 k =
      pts0 ++ [{ enabled := (match saved.find? (fun e => entryMatches e k) with
                             | some e => e.enabled
                             | none => d),
                 file := k.file, line := k.line, function := k.function,
                 level := k.level, message := k.message }] := by
  simp only [register_trace_point, apply_saved_state]
  cases h : saved.find? (fun e => entryMatches e ⟨k.file, k.line, k.function, k.level, k.message⟩) with
  | none => simp [h]
  | some e => simp [h]

/-- C3 as written is false: a registered point whose `file` string is empty
(and therefore contains no whitespace) saves as a line with two consecutive
separators; reloading that line fails its integer field and yields no
`ConfigEntry` at all for the point. -/
theorem C3_counterexample :
    ((([] : List Char).all (fun c => ! isStreamSpace c)) = true ∧
     ((chars ("f")).all (fun c => ! isStreamSpace c)) = true ∧
     ((chars ("info")).all (fun c => ! isStreamSpace c)) = true ∧
     ((chars ("m")).all (fun c => c != '\n')) = true) ∧
    load_config_entries
      (save_state [⟨true, [], 42, chars ("f"), chars ("info"), chars ("m")⟩]) = [] := by
  decide

/-- C3 (amended): for points whose `file`, `function` and `level` are
nonempty and whitespace-free, whose message has no newline and whose line
number fits in `int`, `save_state` followed by `load_config_entries` yields
exactly one `ConfigEntry` per point, in order, with identical fields; and
registering a key into a registry with loaded entries initialises its flag
from the first structurally-matching entry, falling back to the
process-wide default when none matches. -/
theorem C3_round_trip_persistence (pts : List TracePointInfo)
    (saved : List ConfigEntry) (d : Bool) (pts0 : List TracePointInfo)
    (k : TraceKey)
    (h : ∀ p ∈ pts,
      (p.file ≠ [] ∧ ∀ c ∈ p.file, isStreamSpace c = false) ∧
      (p.function ≠ [] ∧ ∀ c ∈ p.function, isStreamSpace c = false) ∧
      (p.level ≠ [] ∧ ∀ c ∈ p.level, isStreamSpace c = false) ∧
      '\n' ∉ p.message ∧ (-(2 ^ 31) ≤ p.line ∧ p.line < 2 ^ 31)) :
    load_config_entries (save_state pts) = pts.map pointToEntry ∧
    register_trace_point saved d pts0 k =
      pts0 ++ [{ enabled := (match saved.find? (fun e => entryMatches e k) with
                             | some e => e.enabled
                             | none => d),
                 file := k.file, line := k.line, function := k.function,
                 level := k.level, message := k.message }] :=
  ⟨load_save_roundtrip pts h, register_trace_point_eq saved d pts0 k⟩

/-- Witness for C3 at a concrete input (Scenario B): the saved line
`1 app.cc 42 doWork info "starting"` reloads intact, and registering a point
with exactly those fields in a fresh registry that loaded this file starts
it enabled although the process-wide default is disabled. -/
theorem C3_round_trip_persistence_witness :
    load_config_entries (save_state
        [⟨true, chars ("app.cc"), 42, chars ("doWork"), chars ("info"), chars ("\"starting\"")⟩]) =
      [⟨true, chars ("app.cc"), 42, chars ("doWork"), chars ("info"), chars ("\"starting\"")⟩].map
        pointToEntry ∧
    register_trace_point
        (load_config_entries (save_state
          [⟨true, chars ("app.cc"), 42, chars ("doWork"), chars ("info"), chars ("\"starting\"")⟩]))
        false []
        ⟨chars ("app.cc"), 42, chars ("doWork"), chars ("info"), chars ("\"starting\"")⟩ =
      [⟨true, chars ("app.cc"), 42, chars ("doWork"), chars ("info"), chars ("\"starting\"")⟩] := by
  obtain ⟨h1, h2⟩ := C3_round_trip_persistence
    [⟨true, chars ("app.cc"), 42, chars ("doWork"), chars ("info"), chars ("\"starting\"")⟩]
    (load_config_entries (save_state
      [⟨true, chars ("app.cc"), 42, chars ("doWork"), chars ("info"), chars ("\"starting\"")⟩]))
    false []
    ⟨chars ("app.cc"), 42, chars ("doWork"), chars ("info"), chars ("\"starting\"")⟩
    (by decide)
  refine ⟨h1, ?_⟩
  rw [h2]
  decide

end Ytrace
